import Mathlib

/-!
Verification of the rivus repository's localized response/error subsystem.

Strings are modelled as `List Char`; Rust's byte-index `str::find`/slicing on
the ASCII characters `{` `}` `,` `;` coincides with character-level
`takeWhile`/`dropWhile` decomposition, which is what we use.
-/

namespace Rivus

/-! ## Template parser (src/rivus-axum-macro/src/lib.rs) -/

/-- Rust `TemplatePart` from rivus-axum-macro: a parsed template segment. -/
inductive TemplatePart where
  | Static (s : List Char)
  | Placeholder (s : List Char)
deriving DecidableEq, Repr

/-- Elements of `takeWhile (· != c)` are not `c`. -/
theorem ne_of_mem_takeWhile_ne {c x : Char} {l : List Char}
    (h : x ∈ l.takeWhile (· != c)) : x ≠ c := by
  have := List.mem_takeWhile_imp h
  simpa using this

/-- When `c ∈ l`, `dropWhile (· != c)` starts with `c`. -/
theorem dropWhile_ne_eq_cons {c : Char} : ∀ {l : List Char}, c ∈ l →
    l.dropWhile (· != c) = c :: (l.dropWhile (· != c)).tail := by
  intro l h
  induction l with
  | nil => cases h
  | cons x xs ih =>
    by_cases hx : x = c
    · subst hx
      simp [List.dropWhile_cons]
    · have hb : (x != c) = true := by simp [hx]
      have hmem : c ∈ xs := by
        rcases List.mem_cons.mp h with h1 | h1
        · exact absurd h1.symm hx
        · exact h1
      simp only [List.dropWhile_cons, hb, if_pos]
      exact ih hmem

/-- Decomposition of a list at the first occurrence of `c`. -/
theorem eq_takeWhile_cons_dropWhile {c : Char} {l : List Char} (h : c ∈ l) :
    l = l.takeWhile (· != c) ++ c :: (l.dropWhile (· != c)).tail := by
  conv_lhs => rw [← List.takeWhile_append_dropWhile (p := (· != c)) (l := l),
    dropWhile_ne_eq_cons h]

/-- The tail after the first occurrence of `c` is shorter than the whole list. -/
theorem length_dropWhile_tail_lt {c : Char} {l : List Char} (h : c ∈ l) :
    ((l.dropWhile (· != c)).tail).length < l.length := by
  conv_rhs => rw [eq_takeWhile_cons_dropWhile h]
  simp [List.length_append]
  omega

/-- List `takeWhile` stops exactly at the first element failing the predicate. -/
theorem takeWhile_append_cons {p : Char → Bool} :
    ∀ {a : List Char}, (∀ x ∈ a, p x = true) → ∀ {c : Char}, p c = false →
    ∀ (b : List Char), (a ++ c :: b).takeWhile p = a := by
  intro a
  induction a with
  | nil => intro _ c hc b; simp [List.takeWhile_cons, hc]
  | cons x xs ih =>
    intro ha c hc b
    have hx := ha x (List.mem_cons_self _ _)
    have hxs : ∀ y ∈ xs, p y = true := fun y hy => ha y (List.mem_cons_of_mem _ hy)
    simp [List.takeWhile_cons, hx, ih hxs hc b]

/-- List `dropWhile` resumes exactly at the first element failing the predicate. -/
theorem dropWhile_append_cons {p : Char → Bool} :
    ∀ {a : List Char}, (∀ x ∈ a, p x = true) → ∀ {c : Char}, p c = false →
    ∀ (b : List Char), (a ++ c :: b).dropWhile p = c :: b := by
  intro a
  induction a with
  | nil => intro _ c hc b; simp [List.dropWhile_cons, hc]
  | cons x xs ih =>
    intro ha c hc b
    have hx := ha x (List.mem_cons_self _ _)
    have hxs : ∀ y ∈ xs, p y = true := fun y hy => ha y (List.mem_cons_of_mem _ hy)
    simp [List.dropWhile_cons, hx, ih hxs hc b]

/-- Rust `parse_template` from rivus-axum-macro/src/lib.rs: repeatedly find the next
`{`; the text before it (if nonempty) is a `Static` part; the text up to the
next `}` is a `Placeholder`; if no `}` follows, the scan continues after the
`{` (which is consumed); the final non-empty remainder is a `Static` part. -/
def parse_template (input : List Char) : List TemplatePart :=
  if h : '{' ∈ input then
    (if (input.takeWhile (· != '{')).isEmpty then []
     else [TemplatePart.Static (input.takeWhile (· != '{'))]) ++
    (if h2 : '}' ∈ (input.dropWhile (· != '{')).tail then
      TemplatePart.Placeholder
          (((input.dropWhile (· != '{')).tail).takeWhile (· != '}')) ::
        parse_template ((((input.dropWhile (· != '{')).tail).dropWhile (· != '}')).tail)
    else
      parse_template ((input.dropWhile (· != '{')).tail))
  else
    if input.isEmpty then [] else [TemplatePart.Static input]
termination_by input.length
decreasing_by
  · exact Nat.lt_trans (length_dropWhile_tail_lt h2) (length_dropWhile_tail_lt h)
  · exact length_dropWhile_tail_lt h

theorem bne_eq_true_of_ne {c x : Char} (h : x ≠ c) : (x != c) = true := by
  simp [h]

theorem all_bne_of_not_mem {c : Char} {a : List Char} (h : c ∉ a) :
    ∀ x ∈ a, (x != c) = true := by
  intro x hx
  exact bne_eq_true_of_ne (fun he => h (he ▸ hx))

/-- Step lemma: no `{` in the input. -/
theorem parse_template_no_open {l : List Char} (h : '{' ∉ l) :
    parse_template l = if l.isEmpty then [] else [TemplatePart.Static l] := by
  rw [parse_template, dif_neg h]

/-- Step lemma: a closed placeholder. -/
theorem parse_template_closed {p n : List Char} (hp : '{' ∉ p) (hn : '}' ∉ n)
    (r : List Char) :
    parse_template (p ++ '{' :: (n ++ '}' :: r)) =
      (if p.isEmpty then [] else [TemplatePart.Static p]) ++
        TemplatePart.Placeholder n :: parse_template r := by
  have hmem : '{' ∈ p ++ '{' :: (n ++ '}' :: r) :=
    List.mem_append_right _ (List.mem_cons_self _ _)
  have htw : (p ++ '{' :: (n ++ '}' :: r)).takeWhile (· != '{') = p :=
    takeWhile_append_cons (all_bne_of_not_mem hp) (by simp) _
  have hdw : (p ++ '{' :: (n ++ '}' :: r)).dropWhile (· != '{') =
      '{' :: (n ++ '}' :: r) :=
    dropWhile_append_cons (all_bne_of_not_mem hp) (by simp) _
  have htw2 : (n ++ '}' :: r).takeWhile (· != '}') = n :=
    takeWhile_append_cons (all_bne_of_not_mem hn) (by simp) _
  have hdw2 : (n ++ '}' :: r).dropWhile (· != '}') = '}' :: r :=
    dropWhile_append_cons (all_bne_of_not_mem hn) (by simp) _
  have hclose : '}' ∈ ((p ++ '{' :: (n ++ '}' :: r)).dropWhile (· != '{')).tail := by
    rw [hdw]
    exact List.mem_append_right _ (List.mem_cons_self _ _)
  rw [parse_template, dif_pos hmem, dif_pos hclose, htw, hdw]
  simp only [List.tail_cons, htw2, hdw2, List.tail_cons]

/-- Step lemma: an orphan `{` whose remainder has no `}`: the `{` is consumed
and scanning resumes on the remainder. -/
theorem parse_template_orphan {p r : List Char} (hp : '{' ∉ p) (hr : '}' ∉ r) :
    parse_template (p ++ '{' :: r) =
      (if p.isEmpty then [] else [TemplatePart.Static p]) ++ parse_template r := by
  have hmem : '{' ∈ p ++ '{' :: r :=
    List.mem_append_right _ (List.mem_cons_self _ _)
  have htw : (p ++ '{' :: r).takeWhile (· != '{') = p :=
    takeWhile_append_cons (all_bne_of_not_mem hp) (by simp) _
  have hdw : (p ++ '{' :: r).dropWhile (· != '{') = '{' :: r :=
    dropWhile_append_cons (all_bne_of_not_mem hp) (by simp) _
  have hnoclose : '}' ∉ ((p ++ '{' :: r).dropWhile (· != '{')).tail := by
    rw [hdw]; exact hr
  rw [parse_template, dif_pos hmem, dif_neg hnoclose, htw, hdw]
  simp only [List.tail_cons]

/-- Rejoin parsed segments: literal text verbatim, `Placeholder n` as `{n}`. -/
def rejoin : List TemplatePart → List Char
  | [] => []
  | TemplatePart.Static s :: ps => s ++ rejoin ps
  | TemplatePart.Placeholder n :: ps => '{' :: (n ++ '}' :: rejoin ps)

/-- Concatenated text of the `Static` segments only. -/
def litText : List TemplatePart → List Char
  | [] => []
  | TemplatePart.Static s :: ps => s ++ litText ps
  | TemplatePart.Placeholder _ :: ps => litText ps

/-- Erase every `{` that has no `}` anywhere after it. -/
def eraseDangling : List Char → List Char
  | [] => []
  | c :: rest =>
      if c = '{' ∧ ¬ ('}' ∈ rest) then eraseDangling rest
      else c :: eraseDangling rest

/-- A list has no dangling open brace: every `{` has some `}` after it. -/
def noDangling : List Char → Bool
  | [] => true
  | c :: rest => (c != '{' || rest.contains '}') && noDangling rest

theorem rejoin_append (a b : List TemplatePart) :
    rejoin (a ++ b) = rejoin a ++ rejoin b := by
  induction a with
  | nil => simp [rejoin]
  | cons p ps ih => cases p <;> simp [rejoin, ih]

theorem litText_append (a b : List TemplatePart) :
    litText (a ++ b) = litText a ++ litText b := by
  induction a with
  | nil => simp [litText]
  | cons p ps ih => cases p <;> simp [litText, ih]

theorem eraseDangling_append_left {a : List Char} (ha : '{' ∉ a) (b : List Char) :
    eraseDangling (a ++ b) = a ++ eraseDangling b := by
  induction a with
  | nil => simp
  | cons x xs ih =>
    have hx : x ≠ '{' := by rintro rfl; exact ha (List.mem_cons_self _ _)
    have hxs : '{' ∉ xs := fun h => ha (List.mem_cons_of_mem _ h)
    simp [eraseDangling, hx, ih hxs]

theorem eraseDangling_append_right {b : List Char} (hb : '}' ∈ b) (a : List Char) :
    eraseDangling (a ++ b) = a ++ eraseDangling b := by
  induction a with
  | nil => simp
  | cons x xs ih =>
    have : '}' ∈ xs ++ b := List.mem_append_right _ hb
    simp [eraseDangling, this, ih]

theorem eraseDangling_nil : eraseDangling [] = [] := rfl

theorem eraseDangling_of_not_mem {l : List Char} (h : '{' ∉ l) :
    eraseDangling l = l := by
  have := eraseDangling_append_left h []
  simpa [eraseDangling_nil] using this

theorem eraseDangling_of_no_close {l : List Char} (h : '}' ∉ l) :
    eraseDangling l = l.filter (· != '{') := by
  induction l with
  | nil => simp [eraseDangling]
  | cons c cs ih =>
    have hcs : '}' ∉ cs := fun hm => h (List.mem_cons_of_mem _ hm)
    by_cases hc : c = '{'
    · simp [eraseDangling, hc, hcs, ih hcs, List.filter_cons]
    · have hb : (c != '{') = true := by simp [hc]
      simp [eraseDangling, hc, ih hcs, List.filter_cons, hb]

theorem eraseDangling_of_noDangling : ∀ {l : List Char}, noDangling l = true →
    eraseDangling l = l := by
  intro l h
  induction l with
  | nil => rfl
  | cons c cs ih =>
    have h' := h
    simp only [noDangling, Bool.and_eq_true, Bool.or_eq_true] at h'
    obtain ⟨h1, h2⟩ := h'
    have : ¬ (c = '{' ∧ ¬ ('}' ∈ cs)) := by
      rcases h1 with h1 | h1
      · intro hc; exact (by simpa using h1 : c ≠ '{') hc.1
      · intro hc; exact hc.2 (by simpa using h1)
    simp only [eraseDangling, if_neg this]
    rw [ih h2]

theorem rejoin_static_opt (p : List Char) :
    rejoin (if p.isEmpty then [] else [TemplatePart.Static p]) = p := by
  by_cases hp : p.isEmpty
  · simp [hp, rejoin, List.isEmpty_iff.mp hp]
  · simp [hp, rejoin]

theorem litText_static_opt (p : List Char) :
    litText (if p.isEmpty then [] else [TemplatePart.Static p]) = p := by
  by_cases hp : p.isEmpty
  · simp [hp, litText, List.isEmpty_iff.mp hp]
  · simp [hp, litText]

/-- Master lemma: rejoining the parse of `l` yields `l` with every dangling
open brace removed. -/
theorem rejoin_parse_template (l : List Char) :
    rejoin (parse_template l) = eraseDangling l := by
  suffices H : ∀ (k : Nat) (l : List Char), l.length ≤ k →
      rejoin (parse_template l) = eraseDangling l from H l.length l le_rfl
  intro k
  induction k with
  | zero =>
    intro l hl
    have : l = [] := List.length_eq_zero.mp (Nat.le_zero.mp hl)
    subst this
    rw [parse_template_no_open (by simp)]
    simp [rejoin, eraseDangling]
  | succ k ih =>
    intro l hl
    by_cases h : '{' ∈ l
    · have hdecomp := eq_takeWhile_cons_dropWhile h
      set p := l.takeWhile (· != '{') with hp
      set rest := (l.dropWhile (· != '{')).tail with hrest
      have hp_no : '{' ∉ p := fun hm => (ne_of_mem_takeWhile_ne hm) rfl
      have hlen : p.length + 1 + rest.length = l.length := by
        conv_rhs => rw [hdecomp]
        simp [List.length_append]
        omega
      by_cases h2 : '}' ∈ rest
      · have hdecomp2 := eq_takeWhile_cons_dropWhile h2
        set n := rest.takeWhile (· != '}') with hn
        set r := (rest.dropWhile (· != '}')).tail with hr
        have hn_no : '}' ∉ n := fun hm => (ne_of_mem_takeWhile_ne hm) rfl
        have hlen2 : n.length + 1 + r.length = rest.length := by
          conv_rhs => rw [hdecomp2]
          simp [List.length_append]
          omega
        have hrk : r.length ≤ k := by omega
        rw [hdecomp, hdecomp2, parse_template_closed hp_no hn_no r]
        rw [rejoin_append, rejoin_static_opt]
        simp only [rejoin]
        rw [ih r hrk]
        rw [eraseDangling_append_left hp_no]
        have e1 : eraseDangling ('{' :: (n ++ '}' :: r)) =
            '{' :: eraseDangling (n ++ '}' :: r) := by
          have : '}' ∈ n ++ '}' :: r := List.mem_append_right _ (List.mem_cons_self _ _)
          simp [eraseDangling, this]
        rw [e1, eraseDangling_append_right (List.mem_cons_self _ _) n]
        have e2 : eraseDangling ('}' :: r) = '}' :: eraseDangling r := by
          simp [eraseDangling]
        rw [e2]
      · have hrk : rest.length ≤ k := by omega
        rw [hdecomp, parse_template_orphan hp_no h2]
        rw [rejoin_append, rejoin_static_opt, ih rest hrk]
        rw [eraseDangling_append_left hp_no]
        have e1 : eraseDangling ('{' :: rest) = eraseDangling rest := by
          simp [eraseDangling, h2]
        rw [e1]
    · rw [parse_template_no_open h]
      by_cases hi : l.isEmpty
      · simp [hi, rejoin, List.isEmpty_iff.mp hi, eraseDangling]
      · simp [hi, rejoin, eraseDangling_of_not_mem h]

theorem filter_ne_of_not_mem {c : Char} {l : List Char} (h : c ∉ l) :
    l.filter (· != c) = l :=
  List.filter_eq_self.mpr (all_bne_of_not_mem h)

/-- On input with no `}` at all, the parser emits only `Static` parts whose
concatenated text is the input with every `{` removed. -/
theorem parse_template_no_close {l : List Char} (h : '}' ∉ l) :
    (∀ q ∈ parse_template l, ∃ s, q = TemplatePart.Static s) ∧
      litText (parse_template l) = l.filter (· != '{') := by
  suffices H : ∀ (k : Nat) (l : List Char), l.length ≤ k → '}' ∉ l →
      (∀ q ∈ parse_template l, ∃ s, q = TemplatePart.Static s) ∧
        litText (parse_template l) = l.filter (· != '{') from H l.length l le_rfl h
  intro k
  induction k with
  | zero =>
    intro l hl _
    have : l = [] := List.length_eq_zero.mp (Nat.le_zero.mp hl)
    subst this
    rw [parse_template_no_open (by simp)]
    simp [litText]
  | succ k ih =>
    intro l hl hcl
    by_cases h : '{' ∈ l
    · have hdecomp := eq_takeWhile_cons_dropWhile h
      set p := l.takeWhile (· != '{') with hp
      set rest := (l.dropWhile (· != '{')).tail with hrest
      have hp_no : '{' ∉ p := fun hm => (ne_of_mem_takeWhile_ne hm) rfl
      have hp_nocl : '}' ∉ p := fun hm => hcl (hdecomp ▸ List.mem_append_left _ hm)
      have hrest_nocl : '}' ∉ rest := fun hm =>
        hcl (hdecomp ▸ List.mem_append_right _ (List.mem_cons_of_mem _ hm))
      have hlen : p.length + 1 + rest.length = l.length := by
        conv_rhs => rw [hdecomp]
        simp [List.length_append]
        omega
      have hrk : rest.length ≤ k := by omega
      obtain ⟨ihall, ihtext⟩ := ih rest hrk hrest_nocl
      rw [hdecomp, parse_template_orphan hp_no hrest_nocl]
      constructor
      · intro q hq
        rcases List.mem_append.mp hq with hq | hq
        · refine ⟨p, ?_⟩
          by_cases hpe : p.isEmpty <;> simp [hpe] at hq
          exact hq
        · exact ihall q hq
      · rw [litText_append, litText_static_opt, ihtext]
        rw [List.filter_append, filter_ne_of_not_mem hp_no, List.filter_cons]
        simp
    · rw [parse_template_no_open h]
      constructor
      · intro q hq
        by_cases hi : l.isEmpty <;> simp [hi] at hq
        exact ⟨l, hq⟩
      · rw [filter_ne_of_not_mem h]
        by_cases hi : l.isEmpty
        · simp [hi, litText, List.isEmpty_iff.mp hi]
        · simp [hi, litText]

/-- The parser is compositional at an orphan `{`: everything after an open
brace that is never closed is parsed independently of what came before. -/
theorem parse_template_append_orphan {b : List Char} (hb : '}' ∉ b) :
    ∀ (a : List Char),
      parse_template (a ++ '{' :: b) = parse_template a ++ parse_template b := by
  suffices H : ∀ (k : Nat) (a : List Char), a.length ≤ k →
      parse_template (a ++ '{' :: b) = parse_template a ++ parse_template b by
    intro a; exact H a.length a le_rfl
  intro k
  induction k with
  | zero =>
    intro a ha
    have : a = [] := List.length_eq_zero.mp (Nat.le_zero.mp ha)
    subst this
    have h1 := parse_template_orphan (p := []) (r := b) (by simp) hb
    simp only [List.nil_append, List.isEmpty_nil, if_true] at h1
    rw [List.nil_append, h1]
    have h2 : parse_template ([] : List Char) = [] := by
      rw [parse_template_no_open (by simp)]
      rfl
    rw [h2, List.nil_append]
  | succ k ih =>
    intro a ha
    by_cases h : '{' ∈ a
    · have hdecomp := eq_takeWhile_cons_dropWhile h
      set p := a.takeWhile (· != '{') with hp
      set rest := (a.dropWhile (· != '{')).tail with hrest
      have hp_no : '{' ∉ p := fun hm => (ne_of_mem_takeWhile_ne hm) rfl
      have hlen : p.length + 1 + rest.length = a.length := by
        conv_rhs => rw [hdecomp]
        simp [List.length_append]
        omega
      by_cases h2 : '}' ∈ rest
      · have hdecomp2 := eq_takeWhile_cons_dropWhile h2
        set n := rest.takeWhile (· != '}') with hn
        set r := (rest.dropWhile (· != '}')).tail with hr
        have hn_no : '}' ∉ n := fun hm => (ne_of_mem_takeWhile_ne hm) rfl
        have hlen2 : n.length + 1 + r.length = rest.length := by
          conv_rhs => rw [hdecomp2]
          simp [List.length_append]
          omega
        have hrk : r.length ≤ k := by omega
        have hre : (p ++ '{' :: (n ++ '}' :: r)) ++ '{' :: b =
            p ++ '{' :: (n ++ '}' :: (r ++ '{' :: b)) := by
          simp [List.append_assoc]
        rw [hdecomp, hdecomp2, hre, parse_template_closed hp_no hn_no,
          parse_template_closed hp_no hn_no, ih r hrk]
        simp [List.append_assoc]
      · have hrk : rest.length ≤ k := by omega
        have hrest_nocl : '}' ∉ rest ++ '{' :: b := by
          intro hm
          rcases List.mem_append.mp hm with hm | hm
          · exact h2 hm
          · rcases List.mem_cons.mp hm with hm | hm
            · exact absurd hm (by decide)
            · exact hb hm
        have hre : (p ++ '{' :: rest) ++ '{' :: b = p ++ '{' :: (rest ++ '{' :: b) := by
          simp [List.append_assoc]
        rw [hdecomp, hre, parse_template_orphan hp_no hrest_nocl,
          parse_template_orphan hp_no h2, ih rest hrk]
        simp [List.append_assoc]
    · rw [parse_template_orphan h hb, parse_template_no_open h]

/-- C1 counterexample input: parsing `"Hello {name"` drops the orphan `{`:
the literal segments for the dangling suffix read `"name"`, not `"{name"`,
so rejoining the output does not reproduce the input. -/
theorem parse_template_orphan_dropped_cex :
    parse_template "Hello \x7bname".data =
        [TemplatePart.Static "Hello ".data, TemplatePart.Static "name".data] ∧
      litText (parse_template "Hello \x7bname".data) = "Hello name".data ∧
      litText (parse_template "Hello \x7bname".data) ≠ "Hello \x7bname".data := by
  refine ⟨?_, ?_, ?_⟩ <;> simp [parse_template, litText]

/-- C1 (amended): for every template of the form `a ++ '{' :: b` where the
suffix `b` after the orphan `{` contains no `}`, parsing never fails (the
parser is a total function), the suffix is parsed independently of the prefix
into `Static` (literal) segments only, and their concatenated text is the
suffix with every `{` removed — the orphan `{` itself is dropped, not kept. -/
theorem parse_template_unterminated_amended (a b : List Char) (hb : '}' ∉ b) :
    parse_template (a ++ '{' :: b) = parse_template a ++ parse_template b ∧
      (∀ q ∈ parse_template b, ∃ s, q = TemplatePart.Static s) ∧
      litText (parse_template b) = b.filter (· != '{') :=
  ⟨parse_template_append_orphan hb a, (parse_template_no_close hb).1,
    (parse_template_no_close hb).2⟩

/-- C1 witness: concrete instance `"Hello " ++ '{' :: "name"`. -/
theorem parse_template_unterminated_amended_witness :
    ('}' ∉ "name".data) ∧
      (parse_template ("Hello ".data ++ '{' :: "name".data) =
          parse_template "Hello ".data ++ parse_template "name".data ∧
        (∀ q ∈ parse_template "name".data, ∃ s, q = TemplatePart.Static s) ∧
        litText (parse_template "name".data) = ("name".data).filter (· != '{')) :=
  ⟨by decide, parse_template_unterminated_amended "Hello ".data "name".data (by decide)⟩

/-- C5: parsing is lossless for every string with no dangling open brace:
rejoining the parsed segments (literal text verbatim, placeholder `n` as
`{n}`) reconstructs the input exactly. -/
theorem parse_template_lossless (s : List Char) (h : noDangling s = true) :
    rejoin (parse_template s) = s := by
  rw [rejoin_parse_template, eraseDangling_of_noDangling h]

/-- C5 witness: concrete instance `"Hello {name}!"`. -/
theorem parse_template_lossless_witness :
    noDangling "Hello \x7bname\x7d!".data = true ∧
      rejoin (parse_template "Hello \x7bname\x7d!".data) = "Hello \x7bname\x7d!".data :=
  ⟨by decide, parse_template_lossless "Hello \x7bname\x7d!".data (by decide)⟩

/-! ## I18n store and renderer (src/rivus-axum/src/i18n/i18n.rs) -/

/-- Rust `I18nPart` from i18n/i18n.rs. -/
inductive I18nPart where
  | Static (s : List Char)
  | Placeholder (s : List Char)
deriving DecidableEq, Repr

/-- Rust `I18nMap`: language → key → parsed parts. Rust's `HashMap` (unique keys,
lookup by key equality) is modelled as an association list searched with
`find?`. -/
abbrev I18nMap := List (List Char × List (List Char × List I18nPart))

/-- Rust `HashMap::get` on the association-list model. -/
def lookup {α : Type} (m : List (List Char × α)) (key : List Char) : Option α :=
  (m.find? (fun e => e.1 == key)).map (·.2)

/-- The rendering loop of `t`: `Static` pushed verbatim, `Placeholder` pushed
as the first matching argument's value, `""` when none matches. -/
def renderParts (parts : List I18nPart) (args : List (List Char × List Char)) :
    List Char :=
  match parts with
  | [] => []
  | I18nPart.Static s :: ps => s ++ renderParts ps args
  | I18nPart.Placeholder p :: ps =>
      (((args.find? (fun kv => kv.1 == p)).map (·.2)).getD []) ++ renderParts ps args

/-- Rust `t` from i18n/i18n.rs. The `OnceLock` storage cell is passed explicitly:
`none` is the uninitialized state (`I18N_STORAGE.get()` returns `None`). -/
def t (store : Option I18nMap) (lang key : List Char)
    (args : List (List Char × List Char)) : List Char :=
  match store.bind (fun m => lookup m lang) with
  | none => "[Missing Lang: ".data ++ lang ++ "]".data
  | some lang_map =>
    match lookup lang_map key with
    | none => "[Missing Key: ".data ++ key ++ "]".data
    | some parts => renderParts parts args

/-- Rust `OnceLock::set` semantics: the first write installs the value, every later
write fails and leaves the stored value unchanged. -/
def onceSet {α : Type} (st : Option α) (d : α) : Option α :=
  match st with
  | none => some d
  | some c => some c

/-- Rust `internal_init_i18n` from i18n/i18n.rs: `let _ = I18N_STORAGE.set(data);`
(the set error is discarded). -/
def internal_init_i18n (st : Option I18nMap) (d : I18nMap) : Option I18nMap :=
  onceSet st d

/-- Directory-scan store from src/rivus-axum/src/i18n.rs: language → key →
raw template string. -/
abbrev DirStore := List (List Char × List (List Char × List Char))

/-- Rust `init` from src/rivus-axum/src/i18n.rs, after the IO boundary: a missing
or unreadable directory (`sources = none`) returns early without touching the
store; otherwise the collected store is installed with `OnceLock::set`, whose
failure on an already-initialized store is only logged. -/
def init (st : Option DirStore) (sources : Option DirStore) : Option DirStore :=
  match sources with
  | none => st
  | some srcs => onceSet st srcs

/-- Rust `translate` from src/rivus-axum/src/i18n.rs. -/
def translate_dir (st : Option DirStore) (lang key : List Char) :
    Option (List Char) :=
  (st.bind (fun store => lookup store lang)).bind (fun m => lookup m key)

/-- C4: catalog initialization is first-write-wins. Once a catalog `c` is
installed, any later build with any data `d` leaves the installed catalog
equal to `c` and every lookup (renderer `t`, directory `translate`) observes
`c`; the first build from the uninitialized state does install its data. -/
theorem catalog_init_first_write_wins :
    (∀ (d : I18nMap), internal_init_i18n none d = some d) ∧
    (∀ (c d : I18nMap), internal_init_i18n (some c) d = some c) ∧
    (∀ (d1 d2 : I18nMap),
        internal_init_i18n (internal_init_i18n none d1) d2 = some d1) ∧
    (∀ (c d : I18nMap) (lang key : List Char) (args : List (List Char × List Char)),
        t (internal_init_i18n (some c) d) lang key args = t (some c) lang key args) ∧
    (∀ (c : DirStore) (sources : Option DirStore), init (some c) sources = some c) ∧
    (∀ (c : DirStore) (sources : Option DirStore) (lang key : List Char),
        translate_dir (init (some c) sources) lang key =
          translate_dir (some c) lang key) := by
  refine ⟨fun d => rfl, fun c d => rfl, fun d1 d2 => rfl, fun c d lang key args => rfl,
    ?_, ?_⟩
  · intro c sources
    cases sources <;> rfl
  · intro c sources lang key
    cases sources <;> rfl

/-- C7: a language absent from the catalog (including the uninitialized
store) renders exactly `"[Missing Lang: <lang>]"`; a present language whose
map lacks the key renders exactly `"[Missing Key: <key>]"`. -/
theorem t_missing_sentinels :
    (∀ (lang key : List Char) (args : List (List Char × List Char)),
        t none lang key args = "[Missing Lang: ".data ++ lang ++ "]".data) ∧
    (∀ (m : I18nMap) (lang key : List Char) (args : List (List Char × List Char)),
        lookup m lang = none →
        t (some m) lang key args = "[Missing Lang: ".data ++ lang ++ "]".data) ∧
    (∀ (m : I18nMap) (lm : List (List Char × List I18nPart)) (lang key : List Char)
        (args : List (List Char × List Char)),
        lookup m lang = some lm → lookup lm key = none →
        t (some m) lang key args = "[Missing Key: ".data ++ key ++ "]".data) := by
  refine ⟨fun lang key args => rfl, ?_, ?_⟩
  · intro m lang key args h
    simp [t, h]
  · intro m lm lang key args h1 h2
    simp [t, h1, h2]

/-- C7 witness: concrete catalog `{en ↦ {"200" ↦ []}}`, missing language
`fr` and missing key `404`. -/
theorem t_missing_sentinels_witness :
    (lookup [("en".data, [("200".data, ([] : List I18nPart))])] "fr".data =
        none ∧
      t (some [("en".data, [("200".data, ([] : List I18nPart))])]) "fr".data
          "200".data [] = "[Missing Lang: ".data ++ "fr".data ++ "]".data) ∧
    (lookup [("en".data, [("200".data, ([] : List I18nPart))])] "en".data =
        some [("200".data, ([] : List I18nPart))] ∧
      lookup [("200".data, ([] : List I18nPart))] "404".data = none ∧
      t (some [("en".data, [("200".data, ([] : List I18nPart))])]) "en".data
          "404".data [] = "[Missing Key: ".data ++ "404".data ++ "]".data) :=
  ⟨⟨by decide,
    t_missing_sentinels.2.1 [("en".data, [("200".data, [])])] "fr".data "200".data []
      (by decide)⟩,
   ⟨by decide, by decide,
    t_missing_sentinels.2.2 [("en".data, [("200".data, [])])]
      [("200".data, [])] "en".data "404".data [] (by decide) (by decide)⟩⟩

theorem renderParts_eq_map_flatten (parts : List I18nPart)
    (args : List (List Char × List Char)) :
    renderParts parts args =
      (parts.map (fun q => match q with
        | I18nPart.Static s => s
        | I18nPart.Placeholder n =>
            ((args.find? (fun kv => kv.1 == n)).map (·.2)).getD [])).flatten := by
  induction parts with
  | nil => rfl
  | cons q ps ih =>
    cases q with
    | Static s => simp [renderParts, ih]
    | Placeholder n => simp [renderParts, ih]

theorem t_of_lookup {m : I18nMap} {lm : List (List Char × List I18nPart)}
    {parts : List I18nPart} {lang key : List Char}
    (args : List (List Char × List Char))
    (h1 : lookup m lang = some lm) (h2 : lookup lm key = some parts) :
    t (some m) lang key args = renderParts parts args := by
  simp [t, h1, h2]

/-- C8: when language and key are present, `t` renders the in-order
concatenation of the segments — literals verbatim, each placeholder replaced
by the first matching argument's value, or by the empty string when no
argument matches — and the catalog built by parsing `"Hello, {name}!"`
renders `("en","200",[("name","Jason")])` to `"Hello, Jason!"`. -/
theorem t_renders_segments :
    (∀ (m : I18nMap) (lm : List (List Char × List I18nPart))
        (parts : List I18nPart) (lang key : List Char)
        (args : List (List Char × List Char)),
        lookup m lang = some lm → lookup lm key = some parts →
        t (some m) lang key args =
          (parts.map (fun q => match q with
            | I18nPart.Static s => s
            | I18nPart.Placeholder n =>
                ((args.find? (fun kv => kv.1 == n)).map (·.2)).getD [])).flatten) ∧
      t (some [("en".data,
            [("200".data,
              [I18nPart.Static "Hello, ".data, I18nPart.Placeholder "name".data,
               I18nPart.Static "!".data])])])
          "en".data "200".data [("name".data, "Jason".data)] =
        "Hello, Jason!".data := by
  constructor
  · intro m lm parts lang key args h1 h2
    rw [t_of_lookup args h1 h2, renderParts_eq_map_flatten]
  · decide

/-- C8 witness: the general segment-rendering clause applied at the concrete
example catalog. -/
theorem t_renders_segments_witness :
    lookup [("en".data,
        [("200".data,
          [I18nPart.Static "Hello, ".data, I18nPart.Placeholder "name".data,
           I18nPart.Static "!".data])])] "en".data =
      some [("200".data,
        [I18nPart.Static "Hello, ".data, I18nPart.Placeholder "name".data,
         I18nPart.Static "!".data])] ∧
    t (some [("en".data,
        [("200".data,
          [I18nPart.Static "Hello, ".data, I18nPart.Placeholder "name".data,
           I18nPart.Static "!".data])])])
        "en".data "200".data [("name".data, "Jason".data)] =
      ([I18nPart.Static "Hello, ".data, I18nPart.Placeholder "name".data,
        I18nPart.Static "!".data].map (fun q => match q with
          | I18nPart.Static s => s
          | I18nPart.Placeholder n =>
              ((([("name".data, "Jason".data)].find? (fun kv => kv.1 == n)).map
                (·.2)).getD []))).flatten :=
  ⟨by decide,
    t_renders_segments.1
      [("en".data,
        [("200".data,
          [I18nPart.Static "Hello, ".data, I18nPart.Placeholder "name".data,
           I18nPart.Static "!".data])])]
      [("200".data,
        [I18nPart.Static "Hello, ".data, I18nPart.Placeholder "name".data,
         I18nPart.Static "!".data])]
      [I18nPart.Static "Hello, ".data, I18nPart.Placeholder "name".data,
       I18nPart.Static "!".data]
      "en".data "200".data [("name".data, "Jason".data)]
      (by decide) (by decide)⟩

/-! ## Response envelope and error mapping (src/rivus-axum/src/resp/r.rs,
src/rivus-axum/src/resp/err.rs) -/

/-- Modelled from the spec: the `Code` enum (src/rivus-axum/src/resp/code.rs)
is not among the available sources; the spec fixes `Ok` at 200 and designates
fixed `InternalServerError` and `IllegalParam` ("illegal parameter") codes.
The concrete values of the latter two are a modelling choice; no claim
depends on them. -/
inductive Code where
  | Ok
  | InternalServerError
  | IllegalParam
deriving DecidableEq, Repr

/-- Modelled from the spec: `Code::as_i32`. -/
def Code.as_i32 : Code → Int
  | .Ok => 200
  | .InternalServerError => 500
  | .IllegalParam => 400

/-- Rust `IntoResponse for R<T>` (resp/r.rs): the HTTP status for an envelope
code: 500 for the internal-server-error code, 200 otherwise. -/
def statusOf (code : Int) : Nat :=
  if code = Code.InternalServerError.as_i32 then 500 else 200

/-- Rust `validator::ValidationError`: rule code, optional custom message, params.
The `serde_json` param values are modelled by their display strings. -/
structure ValidationError where
  code : List Char
  message : Option (List Char)
  params : List (List Char × List Char)
deriving DecidableEq, Repr

/-- Rust `validator::ValidationErrors::field_errors()`: field → errors, with
`HashMap` iteration modelled by the association list's order. -/
abbrev ValidationErrors := List (List Char × List ValidationError)

/-- Rust `E` from resp/err.rs; the `Sys` cause is an opaque value of any type. -/
inductive E (α : Type) where
  | Code (code : Int)
  | Msg (code : Int) (params : List (List Char × List Char))
  | Sys (cause : α)
  | Val (err : ValidationErrors)

/-- The per-rule detail table inside `format_validation_errors`. -/
def ruleDetail (e : ValidationError) : List Char :=
  if e.code = "required".data then "is required".data
  else if e.code = "length".data then
    match lookup e.params "min".data, lookup e.params "max".data with
    | some mn, some mx => "length must be between ".data ++ mn ++ " and ".data ++ mx
    | some mn, none => "length must be at least ".data ++ mn
    | none, some mx => "length must be at most ".data ++ mx
    | none, none => "length is invalid".data
  else if e.code = "range".data then
    match lookup e.params "min".data, lookup e.params "max".data with
    | some mn, some mx => "must be between ".data ++ mn ++ " and ".data ++ mx
    | some mn, none => "must be at least ".data ++ mn
    | none, some mx => "must be at most ".data ++ mx
    | none, none => "value is out of range".data
  else if e.code = "email".data then "must be a valid email".data
  else
    match e.message with
    | some m => m
    | none => "invalid (".data ++ e.code ++ ")".data

/-- The message lines of `format_validation_errors`: one
`"<field>: <detail>"` per (field, error) pair, in iteration order. -/
def validationMsgs (err : ValidationErrors) : List (List Char) :=
  (err.map (fun fe => fe.2.map (fun e => fe.1 ++ ": ".data ++ ruleDetail e))).flatten

/-- Rust `translate` from resp/r.rs: the key is the decimal rendering of the code;
the language is the task-local `CURRENT_LANG` when bound, else `"zh"`. -/
def translate (store : Option I18nMap) (currentLang : Option (List Char))
    (code : Int) (params : List (List Char × List Char)) : List Char :=
  t store (currentLang.getD "zh".data) (toString code).data params

/-- Rust `format_validation_errors` from resp/r.rs. -/
def format_validation_errors (store : Option I18nMap)
    (currentLang : Option (List Char)) (err : ValidationErrors) : List Char :=
  let msgs := validationMsgs err
  if msgs.isEmpty then translate store currentLang Code.IllegalParam.as_i32 []
  else List.intercalate "; ".data msgs

/-- Rust `map_err` from resp/r.rs; logging is a side effect outside the model. -/
def map_err {α : Type} (store : Option I18nMap) (currentLang : Option (List Char)) :
    E α → Int × List Char
  | E.Code code => (code, translate store currentLang code [])
  | E.Msg code params => (code, translate store currentLang code params)
  | E.Sys _ =>
      (Code.InternalServerError.as_i32,
        translate store currentLang Code.InternalServerError.as_i32 [])
  | E.Val err =>
      (Code.IllegalParam.as_i32, format_validation_errors store currentLang err)

/-- C9: converting an envelope to an HTTP response uses status 500 exactly
when the envelope's code is the internal-server-error code, and 200 for every
other code. -/
theorem statusOf_spec (code : Int) :
    (statusOf code = 500 ↔ code = Code.InternalServerError.as_i32) ∧
      (code ≠ Code.InternalServerError.as_i32 → statusOf code = 200) := by
  unfold statusOf
  by_cases h : code = Code.InternalServerError.as_i32 <;> simp [h]

/-- C9 witness: a business code (the illegal-parameter code) maps to 200. -/
theorem statusOf_spec_witness :
    (Code.IllegalParam.as_i32 ≠ Code.InternalServerError.as_i32) ∧
      statusOf Code.IllegalParam.as_i32 = 200 :=
  ⟨by decide, (statusOf_spec Code.IllegalParam.as_i32).2 (by decide)⟩

/-- C6: mapping a `Sys` (system failure) error yields exactly the
internal-server-error code paired with the localized message for that code
rendered with no arguments, and the result is identical for any two causes of
any types: nothing of the cause reaches the caller-visible result. -/
theorem map_err_sys_opaque :
    (∀ (α : Type) (cause : α) (store : Option I18nMap)
        (currentLang : Option (List Char)),
        map_err store currentLang (E.Sys cause) =
          (Code.InternalServerError.as_i32,
            t store (currentLang.getD "zh".data)
              (toString Code.InternalServerError.as_i32).data [])) ∧
    (∀ (α β : Type) (c1 : α) (c2 : β) (store : Option I18nMap)
        (currentLang : Option (List Char)),
        map_err store currentLang (E.Sys c1) = map_err store currentLang (E.Sys c2)) :=
  ⟨fun _ _ _ _ => rfl, fun _ _ _ _ _ _ => rfl⟩

/-- C3 counterexample: an unrecognized rule kind whose error carries a custom
message renders that message, not `"invalid (<rule>)"` as the claim's table
dictates. -/
theorem format_validation_unknown_rule_cex :
    format_validation_errors none none
        [("x".data, [⟨"custom".data, some "oops".data, []⟩])] = "x: oops".data ∧
      format_validation_errors none none
          [("x".data, [⟨"custom".data, some "oops".data, []⟩])] ≠
        "x: invalid (custom)".data := by
  constructor
  · decide
  · decide

/-- C3 (amended): mapping a `Val` error yields the fixed illegal-parameter
code and a message joining with `"; "` one `"<field>: <detail>"` line per
(field, rule) pair, with `detail` from the fixed table (`required`, `length`
and `range` with their bound variants, `email`); an unrecognized rule kind
uses the error's own message when present and `"invalid (<rule>)"` only
otherwise; an empty field-error set falls back to the plain localized message
for the illegal-parameter code; a single `required` failure on field `name`
yields exactly `"name: is required"` with the illegal-parameter code. -/
theorem map_err_validation_amended :
    (∀ (α : Type) (store : Option I18nMap) (currentLang : Option (List Char))
        (err : ValidationErrors),
        map_err (α := α) store currentLang (E.Val err) =
          (Code.IllegalParam.as_i32, format_validation_errors store currentLang err)) ∧
    (∀ (store : Option I18nMap) (currentLang : Option (List Char))
        (err : ValidationErrors), validationMsgs err ≠ [] →
        format_validation_errors store currentLang err =
          List.intercalate "; ".data (validationMsgs err)) ∧
    (∀ (store : Option I18nMap) (currentLang : Option (List Char)),
        format_validation_errors store currentLang [] =
          translate store currentLang Code.IllegalParam.as_i32 []) ∧
    (∀ e : ValidationError, e.code = "required".data →
        ruleDetail e = "is required".data) ∧
    (∀ (e : ValidationError) (mn mx : List Char), e.code = "length".data →
        lookup e.params "min".data = some mn → lookup e.params "max".data = some mx →
        ruleDetail e = "length must be between ".data ++ mn ++ " and ".data ++ mx) ∧
    (∀ (e : ValidationError) (mn : List Char), e.code = "length".data →
        lookup e.params "min".data = some mn → lookup e.params "max".data = none →
        ruleDetail e = "length must be at least ".data ++ mn) ∧
    (∀ (e : ValidationError) (mx : List Char), e.code = "length".data →
        lookup e.params "min".data = none → lookup e.params "max".data = some mx →
        ruleDetail e = "length must be at most ".data ++ mx) ∧
    (∀ (e : ValidationError) (mn mx : List Char), e.code = "range".data →
        lookup e.params "min".data = some mn → lookup e.params "max".data = some mx →
        ruleDetail e = "must be between ".data ++ mn ++ " and ".data ++ mx) ∧
    (∀ e : ValidationError, e.code = "email".data →
        ruleDetail e = "must be a valid email".data) ∧
    (∀ e : ValidationError,
        e.code ≠ "required".data → e.code ≠ "length".data →
        e.code ≠ "range".data → e.code ≠ "email".data →
        ((∀ m, e.message = some m → ruleDetail e = m) ∧
          (e.message = none →
            ruleDetail e = "invalid (".data ++ e.code ++ ")".data))) ∧
    map_err (α := Unit) none none
        (E.Val [("name".data, [⟨"required".data, none, []⟩])]) =
      (Code.IllegalParam.as_i32, "name: is required".data) := by
  have hreq : ("length".data : List Char) ≠ "required".data := by decide
  have hrng1 : ("range".data : List Char) ≠ "required".data := by decide
  have hrng2 : ("range".data : List Char) ≠ "length".data := by decide
  have hem1 : ("email".data : List Char) ≠ "required".data := by decide
  have hem2 : ("email".data : List Char) ≠ "length".data := by decide
  have hem3 : ("email".data : List Char) ≠ "range".data := by decide
  refine ⟨fun _ _ _ _ => rfl, ?_, fun _ _ => rfl, ?_, ?_, ?_, ?_, ?_, ?_, ?_,
    by decide⟩
  · intro store currentLang err hne
    unfold format_validation_errors
    simp only [List.isEmpty_iff]
    rw [if_neg hne]
  · intro e hc
    unfold ruleDetail
    rw [if_pos hc]
  · intro e mn mx hc h1 h2
    unfold ruleDetail
    rw [hc, if_neg hreq, if_pos rfl, h1, h2]
  · intro e mn hc h1 h2
    unfold ruleDetail
    rw [hc, if_neg hreq, if_pos rfl, h1, h2]
  · intro e mx hc h1 h2
    unfold ruleDetail
    rw [hc, if_neg hreq, if_pos rfl, h1, h2]
  · intro e mn mx hc h1 h2
    unfold ruleDetail
    rw [hc, if_neg hrng1, if_neg hrng2, if_pos rfl, h1, h2]
  · intro e hc
    unfold ruleDetail
    rw [hc, if_neg hem1, if_neg hem2, if_neg hem3, if_pos rfl]
  · intro e h1 h2 h3 h4
    constructor
    · intro m hm
      unfold ruleDetail
      rw [if_neg h1, if_neg h2, if_neg h3, if_neg h4, hm]
    · intro hm
      unfold ruleDetail
      rw [if_neg h1, if_neg h2, if_neg h3, if_neg h4, hm]

/-- C3 witness: the `email` table row applied at a concrete error. -/
theorem map_err_validation_amended_witness :
    ((⟨"email".data, none, []⟩ : ValidationError).code = "email".data) ∧
      ruleDetail ⟨"email".data, none, []⟩ = "must be a valid email".data :=
  ⟨rfl, map_err_validation_amended.2.2.2.2.2.2.2.2.1 ⟨"email".data, none, []⟩ rfl⟩

/-! ## ID codec (src/rivus-core/src/utils/uid.rs) -/

/-- Rust `Result<_, Error>` with `Error { code, message }` (rivus-core), made
decidable for concrete evaluation. -/
inductive Res (α : Type) where
  | ok (v : α)
  | err (code : Int) (message : List Char)
deriving DecidableEq, Repr

/-- Rust `char_to_u8` from uid.rs: inverse digit table. -/
def char_to_u8 (c : Char) : Res Nat :=
  if 'A' ≤ c ∧ c ≤ 'Z' then .ok (c.toNat - 65)
  else if 'a' ≤ c ∧ c ≤ 'z' then .ok (c.toNat - 97 + 26)
  else if '0' ≤ c ∧ c ≤ '9' then .ok (c.toNat - 48 + 52)
  else if c = '+' then .ok 62
  else if c = '/' then .ok 63
  else .err 500 ("Unsupported character: ".data ++ [c])

/-- Rust `u6_to_char` from uid.rs: digit table. -/
def u6_to_char (n : Nat) : Option Char :=
  if n ≤ 25 then some (Char.ofNat (65 + n))
  else if n ≤ 51 then some (Char.ofNat (97 + (n - 26)))
  else if n ≤ 61 then some (Char.ofNat (48 + (n - 52)))
  else if n = 62 then some '+'
  else if n = 63 then some '/'
  else none

/-- The `while n != 0` loop of `int_to_str`: emit `n & 0x3F` as a character
(always `some` for values below 64), then `n >>= 6`. u64 is modelled as `Nat`;
the loop uses only masking and right shifts, so no overflow is involved. -/
def int_to_str_go (n : Nat) : List Char :=
  if h : n = 0 then []
  else
    match u6_to_char (n % 64) with
    | some c => c :: int_to_str_go (n / 64)
    | none => int_to_str_go (n / 64)
termination_by n
decreasing_by
  all_goals exact Nat.div_lt_self (Nat.pos_of_ne_zero h) (by norm_num)

/-- Rust `int_to_str` from uid.rs: `0` encodes to the empty string. -/
def int_to_str (n : Nat) : List Char :=
  if n = 0 then [] else int_to_str_go n

/-- The `for (i, c) in s.chars().enumerate()` fold of `str_to_int`:
`result |= (val as u64) << (i * 6)`. Under the 10-character guard the shift
stays below 64, so `Nat` models the u64 arithmetic exactly. -/
def str_to_int_go : List Char → Nat → Nat → Res Nat
  | [], _, acc => .ok acc
  | c :: cs, i, acc =>
    match char_to_u8 c with
    | .err code msg => .err code msg
    | .ok v => str_to_int_go cs (i + 1) (acc ||| (v <<< (i * 6)))

/-- Rust `str_to_int` from uid.rs with its 10-character guard. -/
def str_to_int (s : List Char) : Res Nat :=
  if s.length > 10 then .err 500 "String length cannot exceed 10 characters".data
  else str_to_int_go s 0 0

/-- Disjoint bitwise-or is addition: `a ||| (v <<< k) = a + v * 2 ^ k` when
`a < 2 ^ k`. -/
theorem lor_shiftLeft_eq_add {a v k : Nat} (ha : a < 2 ^ k) :
    a ||| (v <<< k) = a + v * 2 ^ k := by
  apply Nat.eq_of_testBit_eq
  intro j
  rw [Nat.testBit_lor, Nat.testBit_shiftLeft]
  have hrhs : a + v * 2 ^ k = 2 ^ k * v + a := by ring
  rw [hrhs, Nat.testBit_mul_pow_two_add v ha j]
  by_cases hj : j < k
  · have : ¬ (j ≥ k) := by omega
    simp [hj, this]
  · have hge : j ≥ k := by omega
    have halt : a < 2 ^ j := lt_of_lt_of_le ha (Nat.pow_le_pow_right (by norm_num) hge)
    rw [Nat.testBit_lt_two_pow halt]
    simp [hj, hge]

/-- Every 6-bit value has a digit character, and the tables invert. -/
theorem digit_roundtrip : ∀ v : Nat, v < 64 →
    (u6_to_char v).isSome = true ∧
      char_to_u8 ((u6_to_char v).getD 'A') = .ok v := by
  have H : ∀ v : Fin 64, (u6_to_char v.val).isSome = true ∧
      char_to_u8 ((u6_to_char v.val).getD 'A') = .ok v.val := by decide
  intro v hv
  exact H ⟨v, hv⟩

theorem int_to_str_go_zero : int_to_str_go 0 = [] := by
  rw [int_to_str_go]
  simp

theorem int_to_str_go_step {n : Nat} (h : n ≠ 0) :
    int_to_str_go n = (u6_to_char (n % 64)).getD 'A' :: int_to_str_go (n / 64) := by
  have hlt : n % 64 < 64 := Nat.mod_lt _ (by norm_num)
  obtain ⟨hsome, _⟩ := digit_roundtrip (n % 64) hlt
  obtain ⟨c, hc⟩ := Option.isSome_iff_exists.mp hsome
  rw [int_to_str_go, dif_neg h, hc]
  simp [Option.getD, hc]

/-- The decode fold inverts the encode loop at any digit offset. -/
theorem str_to_int_go_int_to_str_go : ∀ (n i acc : Nat), acc < 2 ^ (i * 6) →
    str_to_int_go (int_to_str_go n) i acc = .ok (acc + n * 2 ^ (i * 6)) := by
  intro n
  induction n using Nat.strong_induction_on with
  | _ n ih =>
    intro i acc hacc
    by_cases h : n = 0
    · subst h
      rw [int_to_str_go_zero]
      simp [str_to_int_go]
    · have hlt : n % 64 < 64 := Nat.mod_lt _ (by norm_num)
      obtain ⟨hsome, hinv⟩ := digit_roundtrip (n % 64) hlt
      have hstep : acc ||| (n % 64) <<< (i * 6) = acc + (n % 64) * 2 ^ (i * 6) :=
        lor_shiftLeft_eq_add hacc
      have hacc' : acc + (n % 64) * 2 ^ (i * 6) < 2 ^ ((i + 1) * 6) := by
        have h1 : (n % 64) * 2 ^ (i * 6) ≤ 63 * 2 ^ (i * 6) :=
          Nat.mul_le_mul_right _ (by omega)
        have h2 : (i + 1) * 6 = i * 6 + 6 := by ring
        rw [h2, pow_add]
        have h64 : (2 : Nat) ^ 6 = 64 := by norm_num
        rw [h64]
        omega
      have hq : n / 64 < n := Nat.div_lt_self (Nat.pos_of_ne_zero h) (by norm_num)
      have harith : acc + (n % 64) * 2 ^ (i * 6) + n / 64 * 2 ^ ((i + 1) * 6) =
          acc + n * 2 ^ (i * 6) := by
        have h2 : (i + 1) * 6 = i * 6 + 6 := by ring
        rw [h2, pow_add]
        have h64 : (2 : Nat) ^ 6 = 64 := by norm_num
        rw [h64]
        set q := n / 64 with hqdef
        set r := n % 64 with hrdef
        have hn : 64 * q + r = n := Nat.div_add_mod n 64
        rw [← hn]
        ring
      have hcons : str_to_int_go
            ((u6_to_char (n % 64)).getD 'A' :: int_to_str_go (n / 64)) i acc =
          str_to_int_go (int_to_str_go (n / 64)) (i + 1)
            (acc ||| (n % 64) <<< (i * 6)) := by
        rw [str_to_int_go, hinv]
      rw [int_to_str_go_step h, hcons, hstep,
        ih (n / 64) hq (i + 1) (acc + (n % 64) * 2 ^ (i * 6)) hacc', harith]

theorem int_to_str_go_length_le : ∀ (k n : Nat), n < 64 ^ k →
    (int_to_str_go n).length ≤ k := by
  intro k
  induction k with
  | zero =>
    intro n hn
    have : n = 0 := by simpa using hn
    subst this
    rw [int_to_str_go_zero]
    simp
  | succ k ih =>
    intro n hn
    by_cases h : n = 0
    · subst h
      rw [int_to_str_go_zero]
      simp
    · rw [int_to_str_go_step h]
      simp only [List.length_cons]
      have hdiv : n / 64 < 64 ^ k := by
        apply Nat.div_lt_of_lt_mul
        calc n < 64 ^ (k + 1) := hn
          _ = 64 * 64 ^ k := by rw [pow_succ]; ring
      have := ih (n / 64) hdiv
      omega

theorem int_to_str_go_length_ge : ∀ (k n : Nat), 64 ^ k ≤ n →
    k + 1 ≤ (int_to_str_go n).length := by
  intro k
  induction k with
  | zero =>
    intro n hn
    have h1 : 1 ≤ n := by simpa using hn
    have h : n ≠ 0 := by omega
    rw [int_to_str_go_step h]
    simp
  | succ k ih =>
    intro n hn
    have hp : 0 < (64 : Nat) ^ (k + 1) := pow_pos (by norm_num) _
    have h : n ≠ 0 := by omega
    rw [int_to_str_go_step h]
    simp only [List.length_cons]
    have hdiv : 64 ^ k ≤ n / 64 := by
      rw [Nat.le_div_iff_mul_le (by norm_num)]
      calc 64 ^ k * 64 = 64 ^ (k + 1) := (pow_succ 64 k).symm
        _ ≤ n := hn
    have := ih (n / 64) hdiv
    omega

/-- C10: the ID codec round-trips on its supported range: `int_to_str 0 = ""`
and `str_to_int "" = Ok 0`; for every `n < 2^60` the encoding decodes back to
`n`; and for `2^60 ≤ n < 2^64` the encoding is 11 characters long, which
`str_to_int` rejects with its 10-character length guard. -/
theorem uid_codec_roundtrip :
    int_to_str 0 = [] ∧
    str_to_int [] = Res.ok 0 ∧
    (∀ n : Nat, n < 2 ^ 60 → str_to_int (int_to_str n) = Res.ok n) ∧
    (∀ n : Nat, 2 ^ 60 ≤ n → n < 2 ^ 64 →
      (int_to_str n).length = 11 ∧
      str_to_int (int_to_str n) =
        Res.err 500 "String length cannot exceed 10 characters".data) := by
  refine ⟨rfl, rfl, ?_, ?_⟩
  · intro n hn
    by_cases h : n = 0
    · subst h
      rfl
    · have hgo : int_to_str n = int_to_str_go n := by rw [int_to_str, if_neg h]
      have hlen : (int_to_str_go n).length ≤ 10 := by
        apply int_to_str_go_length_le
        calc n < 2 ^ 60 := hn
          _ = 64 ^ 10 := by norm_num
      rw [hgo, str_to_int, if_neg (by omega)]
      have := str_to_int_go_int_to_str_go n 0 0 (by norm_num)
      simpa using this
  · intro n h60 h64
    have hp : (0 : Nat) < 2 ^ 60 := pow_pos (by norm_num) _
    have h : n ≠ 0 := by omega
    have hgo : int_to_str n = int_to_str_go n := by rw [int_to_str, if_neg h]
    have hle : (int_to_str_go n).length ≤ 11 := by
      apply int_to_str_go_length_le
      calc n < 2 ^ 64 := h64
        _ ≤ 64 ^ 11 := by norm_num
    have hge : 11 ≤ (int_to_str_go n).length := by
      have h10 : (64 : Nat) ^ 10 ≤ n := by
        calc (64 : Nat) ^ 10 = 2 ^ 60 := by norm_num
          _ ≤ n := h60
      have := int_to_str_go_length_ge 10 n h10
      omega
    have hlen : (int_to_str_go n).length = 11 := le_antisymm hle hge
    refine ⟨by rw [hgo]; exact hlen, ?_⟩
    rw [hgo, str_to_int, if_pos (by omega)]

/-- C10 witness: concrete round trip at `n = 12345`. -/
theorem uid_codec_roundtrip_witness :
    (12345 : Nat) < 2 ^ 60 ∧ str_to_int (int_to_str 12345) = Res.ok 12345 :=
  ⟨by norm_num, uid_codec_roundtrip.2.2.1 12345 (by norm_num)⟩

end Rivus
